import Mathlib

/-!
# Verification of libsetting (`src/include/setting.h`)

A shallow embedding of the `dutil::setting` class: the key-value store
(`std::map<std::string, std::string>` modelled as a key-sorted association
list), the whitespace trimmer, the line ingestor, the single-pass
interpolation scanner `parse_once`, the bounded recursion driver
`parse_recursive`, the typed getters, the comma-list getter and the dumper.

Strings are modelled as Lean `String` (lists of characters). The scanner in
the C++ source iterates over `c_str()` and stops at the first NUL byte, so
the embedding treats both the end of the character list and an embedded
`'\x00'` character as the terminator. ASCII inputs are assumed for the
`ctype.h` character classes (`isalnum`).
-/

namespace LibSetting

/-- The whitespace set used by `setting::trim`: `" \t\r\n"`. -/
def isWs (c : Char) : Bool :=
  c == ' ' || c == '\t' || c == '\r' || c == '\n'

/-- `setting::check_identifier`: `isalnum(ch) || ch == '_'` (C locale, ASCII). -/
def isIdent (c : Char) : Bool :=
  c.isAlphanum || c == '_'

/-- The internal key-value map `std::map<std::string, std::string>`,
modelled as an association list kept sorted by key (the `std::map`
representation invariant; see `StoreSorted`). -/
abbrev Store := List (String × String)

/-- `map_.find(key)`: lookup by key. -/
def mapFind : Store → String → Option String
  | [], _ => none
  | (k', v) :: t, k => if k = k' then some v else mapFind t k

/-- Lexicographic comparison of character lists: `std::string::operator<`
(byte-wise lexicographic; character-wise here, identical on ASCII). -/
def listLt : List Char → List Char → Bool
  | [], [] => false
  | [], _ :: _ => true
  | _ :: _, [] => false
  | a :: as, b :: bs => if a < b then true else if b < a then false else listLt as bs

/-- The key order of `std::map<std::string, std::string>`. -/
def strLt (a b : String) : Bool :=
  listLt a.data b.data

/-- `map_[key] = value`: insert or overwrite, keeping the list key-sorted
(the position `std::map` stores the node at). -/
def mapInsert : Store → String → String → Store
  | [], k, v => [(k, v)]
  | (k', v') :: t, k, v =>
      if strLt k k' then (k, v) :: (k', v') :: t
      else if k = k' then (k, v) :: t
      else (k', v') :: mapInsert t k v

/-- The `std::map` ordering invariant: keys strictly increasing. -/
def StoreSorted (S : Store) : Prop :=
  S.Pairwise (fun a b => strLt a.1 b.1 = true)

/-- `setting::trim`.  The C++ source is
```
begin = s.find_first_not_of(whitespace);
if (begin == s.npos) return;
end = s.find_last_not_of(whitespace);
*out = s.substr(begin, end + 1);
```
`substr`'s second argument is a character count clamped to `size() - begin`,
so the faithful embedding takes `end + 1` characters starting at `begin`
(not the characters up to index `end`). -/
def trim (s : String) : String :=
  let l := s.data
  let b := l.findIdx (fun c => !(isWs c))
  if b = l.length then ""
  else
    let e := l.length - 1 - l.reverse.findIdx (fun c => !(isWs c))
    ⟨(l.drop b).take (e + 1)⟩

/-- `s.find("=")`: index of the first `'='`, or `none` for `npos`. -/
def findEq : List Char → Option Nat
  | [] => none
  | c :: t => if c = '=' then some 0 else (findEq t).map (· + 1)

/-- `setting::insert`.  `s.find("=")` yields the first `'='` or `npos`;
the C++ stores it in an `int` (`npos` becomes `-1`), after which
`s.substr(0, -1)` takes the whole string and `s.substr(-1 + 1)` also takes
the whole string, so on a line without `'='` both the key and the value are
the trimmed whole line. -/
def insert (S : Store) (s : String) : Store :=
  match findEq s.data with
  | some p =>
      let key := trim ⟨s.data.take p⟩
      let value := trim ⟨s.data.drop (p + 1)⟩
      if key = "" then S else mapInsert S key value
  | none =>
      let key := trim s
      if key = "" then S else mapInsert S key (trim s)

/-- The scanner states of `setting::parse_once`.  `PS_UNKNOW`, `PS_ESCAPE`,
`PS_DOLLAR`, `PS_FETCHKEY` and `PS_REPLACE` can persist from one loop
iteration to the next; `PS_FINISH` and `PS_REPLACE_FINISH` only occur at the
terminating NUL and are embedded as the non-recursive end-of-input cases of
`ploop`. -/
inductive PState where
  | unknow
  | escape
  | dollar
  | fetchkey
  | replaceSt
deriving DecidableEq

/-- The state-transition if-chain at the top of `parse_once`'s loop body,
for a non-NUL character `c` (the `'\0'` test is handled by the caller):
```
if (*pch == '\\')                 state = PS_ESCAPE;
else if (*pch == '$' && state != PS_ESCAPE) state = PS_DOLLAR;
else if (state == PS_DOLLAR)      state = PS_FETCHKEY;
else if (state == PS_FETCHKEY && !check_identifier(*pch) && *pch != '{')
                                  state = PS_REPLACE;
else if (state != PS_FETCHKEY)    state = PS_UNKNOW;
```
-/
def nextState (st : PState) (c : Char) : PState :=
  if c = '\\' then .escape
  else if c = '$' ∧ st ≠ .escape then .dollar
  else if st = .dollar then .fetchkey
  else if st = .fetchkey ∧ isIdent c = false ∧ c ≠ '{' then .replaceSt
  else if st ≠ .fetchkey then .unknow
  else st

/-- The value appended on `PS_REPLACE` / `PS_REPLACE_FINISH`: the raw value
of the collected key if present, nothing otherwise. -/
def lookupD (m : Store) (key : List Char) : List Char :=
  match mapFind m ⟨key⟩ with
  | some v => v.data
  | none => []

/-- The scanning loop of `setting::parse_once`, carrying the loop-local
variables `state`, `brace_open` and `key` and returning the characters the
loop appends to `*out` from this point on.

Per iteration it mirrors the source:
* at the NUL terminator (end of list or an embedded `'\x00'`) the state
  becomes `PS_REPLACE_FINISH` if it was `PS_FETCHKEY` (one final lookup is
  appended) and `PS_FINISH` otherwise, and the loop breaks;
* `PS_UNKNOW` appends the character verbatim;
* `PS_FETCHKEY` appends identifier characters to `key` and raises
  `brace_open` on `'{'`;
* `PS_REPLACE` looks `key` up in the map, appends the raw value when found
  (and only then clears `key`); then, unless `brace_open && *pch == '}'`,
  `pch--` makes the loop re-read the terminating character in state
  `PS_REPLACE`.  That re-read character is never `'\\'`, `'$'` or NUL (the
  transition chain would not have produced `PS_REPLACE` on those), so the
  re-read iteration always moves to `PS_UNKNOW` and copies the character;
  the embedding performs that single re-read iteration directly
  (`c :: ploop m .unknow ...`), keeping the recursion structural. -/
def ploop (m : Store) : PState → Bool → List Char → List Char → List Char
  | st, _, key, [] => if st = .fetchkey then lookupD m key else []
  | st, b, key, c :: rest =>
    if c = '\x00' then
      if st = .fetchkey then lookupD m key else []
    else
      if nextState st c = .unknow then c :: ploop m .unknow b key rest
      else if nextState st c = .escape then ploop m .escape b key rest
      else if nextState st c = .dollar then ploop m .dollar b key rest
      else if nextState st c = .fetchkey then
        ploop m .fetchkey (b || (c == '{'))
          (key ++ if isIdent c then [c] else []) rest
      else
        lookupD m key ++
          if b ∧ c = '}' then
            ploop m .replaceSt b (if (mapFind m ⟨key⟩).isSome then [] else key)
              rest
          else
            c :: ploop m .unknow b
              (if (mapFind m ⟨key⟩).isSome then [] else key) rest

/-- `setting::parse_once`: one interpolation pass. -/
def parse_once (m : Store) (s : String) : String :=
  ⟨ploop m .unknow false [] s.data⟩

/-- `str.find('$') < str.npos`: the original string contains a dollar. -/
def hasDollar (s : String) : Bool :=
  s.data.contains '$'

/-- The loop of `setting::parse_recursive`:
```
for (size_t i = 0; i < recursion_level_ && str.find('$') < str.npos; i++) {
    parse_once(lhs, &rhs);
    lhs = rhs;
}
```
Note the continuation test inspects the original `str`, not `lhs`. -/
def prLoop (m : Store) (orig : String) : Nat → String → String
  | 0, lhs => lhs
  | n + 1, lhs =>
      if hasDollar orig then prLoop m orig n (parse_once m lhs) else lhs

/-- `setting::parse_recursive` with `recursion_level_ = level`. -/
def parse_recursive (m : Store) (level : Nat) (str : String) : String :=
  prLoop m str level str

/-- `setting::get_value`: look the key up and, when present, resolve its raw
value into the scratch string `reserve_` (returned here as `some`). -/
def get_value (S : Store) (level : Nat) (key : String) : Option String :=
  match mapFind S key with
  | some raw => some (parse_recursive S level raw)
  | none => none

/-- `setting::dump`: iterate the map in key order, appending
`key ++ " = " ++ value ++ "\n"` for each entry (raw, unresolved values). -/
def dump : Store → String
  | [] => ""
  | e :: t => e.1 ++ " = " ++ e.2 ++ "\n" ++ dump t

/-- Split a character stream into the pieces separated by `'\n'`
(`std::getline`'s separator).  A stream of `n` newlines yields `n + 1`
pieces; in particular the result is never empty. -/
def splitLines : List Char → List (List Char)
  | [] => [[]]
  | c :: rest =>
      if c = '\n' then [] :: splitLines rest
      else
        match splitLines rest with
        | [] => [[c]]
        | l :: ls => (c :: l) :: ls

/-- The loop body of `setting::read_from_file`: trim the line; ingest it via
`insert` unless it is empty or starts with `'#'` after trimming. -/
def ingest_line (S : Store) (line : String) : Store :=
  match (trim line).data with
  | [] => S
  | c :: cs => if c = '#' then S else insert S ⟨c :: cs⟩

/-- `setting::read_from_file` on in-memory text: split on `'\n'` and feed
each line through `ingest_line`.  The C++ loop
`while (!(std::getline(ifs, line).eof()))` stops as soon as a read touches
end-of-file, so the final piece (empty when the text ends with `'\n'`, a
trailing unterminated line otherwise) is never ingested — hence
`dropLast`. -/
def loadFromText (text : String) : Store :=
  ((splitLines text.data).dropLast).foldl (fun S l => ingest_line S ⟨l⟩) []

/-- The numeric value of a digit string, most significant first. -/
def digitsToNat (l : List Char) : Nat :=
  l.foldl (fun a c => 10 * a + (c.toNat - '0'.toNat)) 0

/-- The whitespace set skipped by the C numeric parsers
(`isspace` in the C locale). -/
def isCSpace (c : Char) : Bool :=
  c == ' ' || c == '\t' || c == '\n' || c == '\x0b' || c == '\x0c' || c == '\r'

/-- `atoi` / `atol` / `atoll`: skip whitespace, optional sign, then the
leading run of decimal digits (`0` when there is none); trailing text is
ignored.  All three C integer widths are modelled as `Int`; overflow is not
modelled. -/
def atoi (s : String) : Int :=
  let l := s.data.dropWhile isCSpace
  match l with
  | '-' :: t => -(digitsToNat (t.takeWhile Char.isDigit) : Int)
  | '+' :: t => (digitsToNat (t.takeWhile Char.isDigit) : Int)
  | _ => (digitsToNat (l.takeWhile Char.isDigit) : Int)

/-- `strtod`: skip whitespace, optional sign, integer digits, optional
fractional digits after `'.'`, optional decimal exponent.  The parsed value
is represented exactly as a pair `(mantissa, e)` denoting
`mantissa * 10 ^ e` (see `strtodVal`); IEEE-754 round-to-nearest is not
modelled (at every input used in a theorem below the subsequent conversion
to `long` is unaffected by that rounding).  Hex floats, `inf` and `nan` are
not modelled. -/
def strtod (s : String) : Int × Int :=
  let l0 := s.data.dropWhile isCSpace
  let p : Int × List Char :=
    match l0 with
    | '-' :: t => (-1, t)
    | '+' :: t => (1, t)
    | _ => (1, l0)
  let ip := p.2.takeWhile Char.isDigit
  let l1 := p.2.dropWhile Char.isDigit
  let q : List Char × List Char :=
    match l1 with
    | '.' :: t => (t.takeWhile Char.isDigit, t.dropWhile Char.isDigit)
    | _ => ([], l1)
  let mant : Int := p.1 * (digitsToNat (ip ++ q.1) : Int)
  let expo : Int :=
    if ip = [] ∧ q.1 = [] then 0
    else
      (match q.2 with
       | 'e' :: t | 'E' :: t =>
           match t with
           | '-' :: d => -(digitsToNat (d.takeWhile Char.isDigit) : Int)
           | '+' :: d => (digitsToNat (d.takeWhile Char.isDigit) : Int)
           | d => (digitsToNat (d.takeWhile Char.isDigit) : Int)
       | _ => 0) - q.1.length
  (mant, expo)

/-- The rational number denoted by a `strtod` result. -/
def strtodVal (s : String) : ℚ :=
  ((strtod s).1 : ℚ) * (10 : ℚ) ^ (strtod s).2

/-- The C++ conversion from `double` to `long` applied to a parsed
`mantissa * 10 ^ e`: truncation toward zero (`Int.tdiv` is C's integer
division). -/
def doubleToLong (p : Int × Int) : Int :=
  if 0 ≤ p.2 then p.1 * 10 ^ p.2.toNat else Int.tdiv p.1 (10 ^ (-p.2).toNat)

/-- The C++ conversion from a `double` given as an exact rational to
`long`: truncation toward zero. -/
def ratToLong (q : ℚ) : Int :=
  Int.tdiv q.num (q.den : Int)

/-- `setting::get_int`:
`return (get_value(key)) ? atoi(reserve_.c_str()) : defval;`. -/
def get_int (S : Store) (level : Nat) (key : String) (defval : Int) : Int :=
  match get_value S level key with
  | some r => atoi r
  | none => defval

/-- `setting::get_long` (`atol`; same parse as `atoi` in this model). -/
def get_long (S : Store) (level : Nat) (key : String) (defval : Int) : Int :=
  match get_value S level key with
  | some r => atoi r
  | none => defval

/-- `setting::get_longlong` (`atoll`). -/
def get_longlong (S : Store) (level : Nat) (key : String) (defval : Int) :
    Int :=
  match get_value S level key with
  | some r => atoi r
  | none => defval

/-- `setting::get_double`.  The C++ declaration is
`long get_double(const std::string &key, double defval = 0.0) const`
with body `return (get_value(key)) ? strtod(reserve_.c_str(), NULL) : defval;`:
the declared return type is `long`, so both the parsed value and the
caller's `double` default are converted to `long` (truncated toward zero)
on return. -/
def get_double (S : Store) (level : Nat) (key : String) (defval : ℚ) : Int :=
  match get_value S level key with
  | some r => doubleToLong (strtod r)
  | none => ratToLong defval

/-- `setting::get_cstr`: the resolved string when the key exists, the
caller's default (possibly `NULL`, i.e. `none`) otherwise. -/
def get_cstr (S : Store) (level : Nat) (key : String)
    (defval : Option String) : Option String :=
  match get_value S level key with
  | some r => some r
  | none => defval

/-- Split a character stream into the pieces separated by `','`.  This is
what `get_vector`'s loop over `reserve_.find(',', pos)` produces segment by
segment: `substr(pos, break_pos - pos)` between the commas, with the final
`break_pos = npos - 1` iteration taking the remainder of the string and
then terminating the loop (`pos = npos`). -/
def split_commas : List Char → List (List Char)
  | [] => [[]]
  | c :: rest =>
      if c = ',' then [] :: split_commas rest
      else
        match split_commas rest with
        | [] => [[c]]
        | l :: ls => (c :: l) :: ls

/-- `setting::get_vector`: resolve the key; on success trim every
comma-separated segment and push the non-empty ones in order; `none` when
the key does not exist. -/
def get_vector (S : Store) (level : Nat) (key : String) :
    Option (List String) :=
  match get_value S level key with
  | some r =>
      some (((split_commas r.data).map (fun l => trim ⟨l⟩)).filter
        (fun s => !(s == "")))
  | none => none

/-- Key shape produced by guaranteed-benign configuration lines: non-empty,
no newline and no `'='` anywhere, first character neither whitespace nor
`'#'`, last character not whitespace. -/
def goodKey (k : List Char) : Prop :=
  k ≠ [] ∧ (∀ c ∈ k, c ≠ '\n' ∧ c ≠ '=') ∧
    k.head?.all (fun c => !(isWs c) && !(c == '#')) = true ∧
    k.getLast?.all (fun c => !(isWs c)) = true

/-- Value shape produced by benign configuration lines: no newline, and no
leading or trailing whitespace (vacuous for the empty value). -/
def goodVal (v : List Char) : Prop :=
  (∀ c ∈ v, c ≠ '\n') ∧
    v.head?.all (fun c => !(isWs c)) = true ∧
    v.getLast?.all (fun c => !(isWs c)) = true

instance (k : List Char) : Decidable (goodKey k) := by
  unfold goodKey; infer_instance

instance (v : List Char) : Decidable (goodVal v) := by
  unfold goodVal; infer_instance

instance (S : Store) : Decidable (StoreSorted S) := by
  unfold StoreSorted; infer_instance

/-! ## Step lemmas for the `parse_once` scanning loop -/

lemma ident_spec {c : Char} (h : isIdent c = true) :
    c ≠ '\\' ∧ c ≠ '\x00' ∧ c ≠ '$' ∧ c ≠ '{' ∧ c ≠ '}' := by
  refine ⟨?_, ?_, ?_, ?_, ?_⟩ <;> rintro rfl <;> exact absurd h (by decide)

lemma ploop_nil (m : Store) (st : PState) (b : Bool) (key : List Char) :
    ploop m st b key [] = if st = .fetchkey then lookupD m key else [] := rfl

lemma ploop_backslash (m : Store) (st : PState) (b : Bool)
    (key rest : List Char) :
    ploop m st b key ('\\' :: rest) = ploop m .escape b key rest := by
  simp +decide [ploop, nextState]

lemma ploop_unknow_cons (m : Store) (b : Bool) (key rest : List Char)
    {c : Char} (h1 : c ≠ '\\') (h2 : c ≠ '\x00') (h3 : c ≠ '$') :
    ploop m .unknow b key (c :: rest) = c :: ploop m .unknow b key rest := by
  simp +decide [ploop, nextState, h1, h2, h3]

lemma ploop_escape_cons (m : Store) (b : Bool) (key rest : List Char)
    {c : Char} (h1 : c ≠ '\\') (h2 : c ≠ '\x00') :
    ploop m .escape b key (c :: rest) = c :: ploop m .unknow b key rest := by
  simp +decide [ploop, nextState, h1, h2]

lemma ploop_dollar_char (m : Store) {st : PState} (b : Bool)
    (key rest : List Char) (h : st ≠ .escape) :
    ploop m st b key ('$' :: rest) = ploop m .dollar b key rest := by
  simp +decide [ploop, nextState, h]

lemma ploop_dollar_ident (m : Store) (b : Bool) (key rest : List Char)
    {c : Char} (h : isIdent c = true) :
    ploop m .dollar b key (c :: rest) = ploop m .fetchkey b (key ++ [c]) rest := by
  obtain ⟨h1, h2, h3, h4, -⟩ := ident_spec h
  have h4b : (c == '{') = false := by simp [h4]
  simp +decide [ploop, nextState, h, h1, h2, h3, h4, h4b]

lemma ploop_dollar_brace (m : Store) (b : Bool) (key rest : List Char) :
    ploop m .dollar b key ('{' :: rest) = ploop m .fetchkey true key rest := by
  simp +decide [ploop, nextState]

lemma ploop_fetchkey_ident (m : Store) (b : Bool) (key rest : List Char)
    {c : Char} (h : isIdent c = true) :
    ploop m .fetchkey b key (c :: rest) =
      ploop m .fetchkey b (key ++ [c]) rest := by
  obtain ⟨h1, h2, h3, h4, -⟩ := ident_spec h
  have h4b : (c == '{') = false := by simp [h4]
  simp +decide [ploop, nextState, h, h1, h2, h3, h4, h4b]

lemma ploop_fetchkey_term (m : Store) (b : Bool) (key rest : List Char)
    {c : Char} (hni : isIdent c = false) (hbr : c ≠ '{') (h1 : c ≠ '\\')
    (h3 : c ≠ '$') (h2 : c ≠ '\x00') :
    ploop m .fetchkey b key (c :: rest) =
      lookupD m key ++
        if b ∧ c = '}' then
          ploop m .replaceSt b (if (mapFind m ⟨key⟩).isSome then [] else key)
            rest
        else
          c :: ploop m .unknow b
            (if (mapFind m ⟨key⟩).isSome then [] else key) rest := by
  simp +decide [ploop, nextState, hni, hbr, h1, h2, h3]

lemma ploop_replace_cons (m : Store) (b : Bool) (key rest : List Char)
    {c : Char} (h1 : c ≠ '\\') (h2 : c ≠ '\x00') (h3 : c ≠ '$') :
    ploop m .replaceSt b key (c :: rest) = c :: ploop m .unknow b key rest := by
  simp +decide [ploop, nextState, h1, h2, h3]

/-- Characters outside the scanner's special set are copied verbatim in the
default state. -/
lemma ploop_copies (m : Store) (b : Bool) (key : List Char)
    {pre : List Char} (rest : List Char)
    (hp : ∀ a ∈ pre, a ≠ '\\' ∧ a ≠ '$' ∧ a ≠ '\x00') :
    ploop m .unknow b key (pre ++ rest) = pre ++ ploop m .unknow b key rest := by
  induction pre with
  | nil => rfl
  | cons a t ih =>
      obtain ⟨⟨ha1, ha2, ha3⟩, ht⟩ := List.forall_mem_cons.mp hp
      rw [List.cons_append, ploop_unknow_cons m b key _ ha1 ha3 ha2,
        ih ht, List.cons_append]

/-- In `PS_FETCHKEY`, a run of identifier characters is appended to the
collected key. -/
lemma ploop_collect (m : Store) (b : Bool)
    {name : List Char} (key rest : List Char)
    (hn : ∀ a ∈ name, isIdent a = true) :
    ploop m .fetchkey b key (name ++ rest) =
      ploop m .fetchkey b (key ++ name) rest := by
  induction name generalizing key with
  | nil => simp
  | cons a t ih =>
      obtain ⟨ha, ht⟩ := List.forall_mem_cons.mp hn
      rw [List.cons_append, ploop_fetchkey_ident m b key _ ha, ih _ ht]
      simp

/-! ## Lemmas on the store order, `trim`, `findEq`, `splitLines` and `dump` -/

lemma mk_data (s : String) : (⟨s.data⟩ : String) = s := rfl

lemma findEq_none {l : List Char} (h : '=' ∉ l) : findEq l = none := by
  induction l with
  | nil => rfl
  | cons c t ih =>
      have hc : c ≠ '=' := by rintro rfl; exact h (by simp)
      have ht : '=' ∉ t := fun hm => h (by simp [hm])
      simp [findEq, hc, ih ht]

lemma findEq_append {pre l : List Char} (hpre : '=' ∉ pre) :
    findEq (pre ++ '=' :: l) = some pre.length := by
  induction pre with
  | nil => simp [findEq]
  | cons c t ih =>
      have hc : c ≠ '=' := by rintro rfl; exact hpre (by simp)
      have ht : '=' ∉ t := fun hm => hpre (by simp [hm])
      simp [findEq, hc, ih ht]

lemma listLt_irrefl : ∀ l : List Char, listLt l l = false := by
  intro l
  induction l with
  | nil => rfl
  | cons a t ih => simp [listLt, ih, lt_irrefl]

lemma listLt_asymm : ∀ {a b : List Char}, listLt a b = true → listLt b a = false := by
  intro a
  induction a with
  | nil =>
      intro b h
      cases b with
      | nil => simp [listLt] at h
      | cons c t => rfl
  | cons x xs ih =>
      intro b h
      cases b with
      | nil => simp [listLt] at h
      | cons y ys =>
          by_cases h1 : x < y
          · have h2 : ¬ y < x := asymm h1
            simp [listLt, h1, h2]
          · by_cases h2 : y < x
            · simp [listLt, h1, h2] at h
            · have h3 := ih (by simpa [listLt, h1, h2] using h)
              simp [listLt, h1, h2, h3]

lemma listLt_ne {a b : List Char} (h : listLt a b = true) : a ≠ b := by
  rintro rfl
  rw [listLt_irrefl] at h
  exact absurd h (by simp)

lemma strLt_asymm {a b : String} (h : strLt a b = true) : strLt b a = false :=
  listLt_asymm h

lemma strLt_ne {a b : String} (h : strLt a b = true) : a ≠ b := fun he =>
  listLt_ne h (congrArg String.data he)

/-- Inserting a key greater than every key of a sorted store appends at the
end. -/
lemma mapInsert_append (acc : Store) (k v : String)
    (h : ∀ e ∈ acc, strLt e.1 k = true) :
    mapInsert acc k v = acc ++ [(k, v)] := by
  induction acc with
  | nil => rfl
  | cons e t ih =>
      have he : strLt e.1 k = true := h e (by simp)
      have h1 : strLt k e.1 = false := strLt_asymm he
      have h2 : k ≠ e.1 := fun hkk => (strLt_ne he) hkk.symm
      obtain ⟨k', v'⟩ := e
      simp only [mapInsert, h1, Bool.false_eq_true, if_false, if_neg h2]
      rw [ih (fun x hx => h x (by simp [hx]))]
      simp

lemma findIdx_head_true (a : Char) (t : List Char) (ha : isWs a = false) :
    (a :: t).findIdx (fun c => !(isWs c)) = 0 := by
  rw [List.findIdx_cons, show (!(isWs a)) = true from by simp [ha], cond_true]

lemma findIdx_append_ws (ws l : List Char) (hws : ∀ c ∈ ws, isWs c = true) :
    (ws ++ l).findIdx (fun c => !(isWs c)) =
      ws.length + l.findIdx (fun c => !(isWs c)) := by
  induction ws with
  | nil => simp
  | cons w t ih =>
      have hw : isWs w = true := hws w (by simp)
      have ht : ∀ c ∈ t, isWs c = true := fun c hc => hws c (by simp [hc])
      rw [List.cons_append, List.findIdx_cons,
        show (!(isWs w)) = false from by simp [hw], cond_false, ih ht,
        List.length_cons]
      omega

/-- `trim` on a string whose non-whitespace core comes first: the core is
returned and the trailing whitespace dropped (here `begin = 0`, so the
`substr(begin, end + 1)` count bug is invisible). -/
lemma trim_append_trailing (l ws2 : List Char) (hl : l ≠ [])
    (hh : l.head?.all (fun c => !(isWs c)) = true)
    (hlast : l.getLast?.all (fun c => !(isWs c)) = true)
    (hws : ∀ c ∈ ws2, isWs c = true) :
    trim ⟨l ++ ws2⟩ = ⟨l⟩ := by
  obtain ⟨a, t, rfl⟩ := List.exists_cons_of_ne_nil hl
  have ha : isWs a = false := by simpa using hh
  have hb : ((a :: t) ++ ws2).findIdx (fun c => !(isWs c)) = 0 := by
    rw [List.cons_append]
    exact findIdx_head_true _ _ ha
  have hrev : (((a :: t) ++ ws2).reverse).findIdx (fun c => !(isWs c)) =
      ws2.length := by
    rw [List.reverse_append]
    have hrl : (a :: t).reverse ≠ [] := by simp
    obtain ⟨g, r, hgr⟩ := List.exists_cons_of_ne_nil hrl
    have hg : isWs g = false := by
      have hgl : (a :: t).getLast? = some g := by
        rw [← List.head?_reverse, hgr]
        rfl
      simpa [hgl] using hlast
    rw [hgr, findIdx_append_ws _ _
      (fun c hc => hws c (List.mem_reverse.mp hc)), findIdx_head_true g r hg]
    simp
  have hlen : ((a :: t) ++ ws2).length = t.length + 1 + ws2.length := by
    simp [List.length_append]
    omega
  simp only [trim, hb, hrev, hlen]
  rw [if_neg (by omega)]
  have he : t.length + 1 + ws2.length - 1 - ws2.length + 1 = (a :: t).length := by
    simp only [List.length_cons]
    omega
  rw [List.drop_zero, he, List.take_left]

/-- `trim` on leading whitespace followed by a clean core: the core is
returned (the buggy count `end + 1` over-reads past the core, but the
`substr` clamp cuts it back because there is no trailing whitespace). -/
lemma trim_leading_ws (ws1 l : List Char) (hws : ∀ c ∈ ws1, isWs c = true)
    (hl : l ≠ []) (hh : l.head?.all (fun c => !(isWs c)) = true)
    (hlast : l.getLast?.all (fun c => !(isWs c)) = true) :
    trim ⟨ws1 ++ l⟩ = ⟨l⟩ := by
  obtain ⟨a, t, rfl⟩ := List.exists_cons_of_ne_nil hl
  have ha : isWs a = false := by simpa using hh
  have hb : (ws1 ++ a :: t).findIdx (fun c => !(isWs c)) = ws1.length := by
    rw [findIdx_append_ws _ _ hws, findIdx_head_true _ _ ha]
    omega
  have hrev : ((ws1 ++ a :: t).reverse).findIdx (fun c => !(isWs c)) = 0 := by
    rw [List.reverse_append]
    have hrl : (a :: t).reverse ≠ [] := by simp
    obtain ⟨g, r, hgr⟩ := List.exists_cons_of_ne_nil hrl
    have hg : isWs g = false := by
      have hgl : (a :: t).getLast? = some g := by
        rw [← List.head?_reverse, hgr]
        rfl
      simpa [hgl] using hlast
    rw [hgr]
    exact findIdx_head_true _ _ hg
  have hlen : (ws1 ++ a :: t).length = ws1.length + (t.length + 1) := by
    simp [List.length_append]
  simp only [trim, hb, hrev, hlen]
  rw [if_neg (by omega)]
  have he : ws1.length + (t.length + 1) - 1 - 0 + 1 = ws1.length + (t.length + 1) := by
    omega
  rw [he, show ws1.length + (t.length + 1) = ws1.length + (a :: t).length from by simp,
    List.drop_left, List.take_of_length_le (by simp)]

/-- `trim` is the identity on a non-empty string with clean ends. -/
lemma trim_clean (l : List Char) (hl : l ≠ [])
    (hh : l.head?.all (fun c => !(isWs c)) = true)
    (hlast : l.getLast?.all (fun c => !(isWs c)) = true) :
    trim ⟨l⟩ = ⟨l⟩ := by
  have := trim_append_trailing l [] hl hh hlast (by simp)
  simpa using this

/-! ## Claim theorems -/

/-- Claim C1, counterexample.  The claim asserts that `parse_once` keeps the
backslash in the output alongside the escaped character, and that resolving
a raw value of the form `\$b` never substitutes `$b` as a reference.  Both
parts fail: a single pass on `\$b` yields `$b` (the backslash is dropped),
and with `b = w` in the store and the default `recursion_level = 3` the full
resolution yields `w` — the second pass substitutes the reference that the
escape only protected during the first pass. -/
theorem claim_C1_counterexample :
    parse_once [] "\\$b" = "$b" ∧
      parse_recursive [("b", "w")] 3 "\\$b" = "w" := by
  decide

/-- Claim C1, amended: in a single `parse_once` pass a backslash suppresses
interpretation of the immediately following character — in particular an
escaped `$` is copied verbatim and does not start a reference — but the
backslash itself is dropped from the output, and the protection lasts only
for that one pass. -/
theorem claim_C1 (m : Store) (c : Char) (rest : List Char)
    (h1 : c ≠ '\\') (h2 : c ≠ '\x00') :
    parse_once m ⟨'\\' :: c :: rest⟩ = ⟨c :: (parse_once m ⟨rest⟩).data⟩ := by
  show (⟨ploop m .unknow false [] ('\\' :: c :: rest)⟩ : String) = _
  rw [ploop_backslash, ploop_escape_cons m false [] rest h1 h2]
  rfl

/-- Witness for `claim_C1` at `c = '$'`, `rest = "b"`. -/
theorem claim_C1_witness :
    ('$' : Char) ≠ '\\' ∧
      parse_once [] ⟨['\\', '$', 'b']⟩ = ⟨'$' :: (parse_once [] ⟨['b']⟩).data⟩ :=
  ⟨by decide, claim_C1 [] '$' ['b'] (by decide) (by decide)⟩

/-- Claim C2 (confirmed): `parse_recursive` runs interpolation passes gated
by a `$` in the original input: zero passes (identity) when the original
string has no `$`, and exactly `recursion_level` iterated passes otherwise,
each pass feeding the next, regardless of the intermediate results. -/
theorem claim_C2 (m : Store) (level : Nat) (v : String) :
    parse_recursive m level v =
      if hasDollar v then (fun s => parse_once m s)^[level] v else v := by
  unfold parse_recursive
  cases hd : hasDollar v with
  | false =>
      cases level <;> simp [prLoop, hd]
  | true =>
      have aux : ∀ n lhs, prLoop m v n lhs = (fun s => parse_once m s)^[n] lhs := by
        intro n
        induction n with
        | zero => intro lhs; rfl
        | succ k ih =>
            intro lhs
            rw [prLoop, if_pos (by simp [hd]), ih,
              Function.iterate_succ_apply]
      simp [hd, aux]

/-- Claim C4 (code bug).  `trim` computes `s.substr(begin, end + 1)`, whose
second argument is a character count, not an end index, so trailing
whitespace survives whenever leading whitespace was removed: the code's own
doc comment ("removes its heading nand trailing white-spaces") and the
claim require `"a"`, but the code returns the core with trailing whitespace
kept. -/
theorem claim_C4 :
    trim "  a  " = "a  " ∧ trim " a " = "a " ∧ trim "  a  " ≠ "a" := by
  decide

/-- Claim C6 (code bug).  `get_double` is declared with return type `long`,
so the `double` produced by `strtod` is truncated toward zero on return:
for the stored value `3.1415926` the parsed value is exactly
`31415926 / 10000000`, but the getter returns `3` (the project's own sample
output shows `dobule => 3`), not the claimed fractional value. -/
theorem claim_C6 :
    get_double [("double", "3.1415926")] 3 "double" 0 = 3 ∧
      strtodVal "3.1415926" = 31415926 / 10000000 := by
  refine ⟨by decide, ?_⟩
  rw [strtodVal, show strtod "3.1415926" = (31415926, -7) from by decide]
  norm_num

/-- Claim C7 (code bug).  `get_vector` trims each comma-separated segment
with the buggy `trim`, so a segment with both leading and trailing
whitespace keeps its trailing whitespace: for the raw value `a , b ,c` the
segment `" b "` becomes `"b "`, not the claimed fully-trimmed `"b"`.  The
spec's own example `el1,el2 ,el3, el4` (no segment has whitespace on both
sides) does come out fully trimmed. -/
theorem claim_C7 :
    get_vector [("v", "a , b ,c")] 3 "v" = some ["a", "b ", "c"] ∧
      get_vector [("v", "a , b ,c")] 3 "v" ≠ some ["a", "b", "c"] ∧
      get_vector [("vector", "el1,el2 ,el3, el4")] 3 "vector" =
        some ["el1", "el2", "el3", "el4"] := by
  decide

/-- Claim C8 (code bug).  On an absent key, `get_int`, `get_long`,
`get_longlong` and `get_cstr` return the caller's default exactly (and the
model is purely functional — no call touches the map), but `get_double`
returns `defval` converted to `long`: with default `5/2 = 2.5` it returns
`2`, because the function's declared return type is `long` while the
default parameter is a `double`. -/
theorem claim_C8 :
    get_int [] 3 "k" 7 = 7 ∧ get_long [] 3 "k" 7 = 7 ∧
      get_longlong [] 3 "k" 7 = 7 ∧
      get_cstr [] 3 "k" (some "d") = some "d" ∧
      get_double [] 3 "k" (5 / 2) = 2 := by
  refine ⟨by decide, by decide, by decide, by decide, ?_⟩
  have h1 : ((5 / 2 : ℚ)).num = 5 := by norm_num
  have h2 : ((5 / 2 : ℚ)).den = 2 := by norm_num
  simp only [get_double, get_value, mapFind, ratToLong, h1, h2]
  decide

/-- Claim C9 (confirmed, implicit): a line without `'='` whose trimmed text
is non-empty is stored with the whole trimmed line as both the key and the
value — `find` returns `npos`, so both `substr` calls take the entire
line. -/
theorem claim_C9 (S : Store) (s : String) (hne : '=' ∉ s.data)
    (ht : trim s ≠ "") :
    insert S s = mapInsert S (trim s) (trim s) := by
  unfold insert
  rw [findEq_none hne]
  simp [ht]

/-- Witness for `claim_C9` on the line `"key"` and the empty store. -/
theorem claim_C9_witness :
    '=' ∉ ("key" : String).data ∧ trim "key" ≠ "" ∧
      insert [] "key" = mapInsert [] (trim "key") (trim "key") :=
  ⟨by decide, by decide, claim_C9 [] "key" (by decide) (by decide)⟩

/-- A bare `$name` reference closed by `'}'` while `brace_open` is already
set (by an earlier brace-form reference): the reference is substituted and
the `'}'` is consumed without being copied or re-examined.  Works from any
entry state except `PS_ESCAPE` / `PS_DOLLAR` / `PS_FETCHKEY`. -/
lemma ploop_ref_braceclose (m : Store) {st : PState} (hst : st ≠ .escape)
    {n : List Char} (v : String) (hne : n ≠ [])
    (hid : ∀ a ∈ n, isIdent a = true) (hv : mapFind m ⟨n⟩ = some v) :
    ploop m st true [] ('$' :: (n ++ ['}'])) = v.data := by
  obtain ⟨n0, nt, rfl⟩ := List.exists_cons_of_ne_nil hne
  have hn0 : isIdent n0 = true := hid n0 (by simp)
  have hnt : ∀ a ∈ nt, isIdent a = true := fun a ha => hid a (by simp [ha])
  rw [ploop_dollar_char m true [] _ hst, List.cons_append,
    ploop_dollar_ident m true [] _ hn0, List.nil_append,
    ploop_collect m true [n0] _ hnt,
    ploop_fetchkey_term m true ([n0] ++ nt) [] (by decide) (by decide)
      (by decide) (by decide) (by decide)]
  simp [lookupD, hv, ploop_nil]

/-- Claim C3, counterexample.  The claim asserts that each token's lookup
uses exactly that token's identifier even when unresolved references
precede it.  But `key.clear()` is executed only when a lookup succeeds, so
after the unresolved `$x`, scanning `$y` looks up the stale concatenation
`"xy"`: with only `y = v` in the store, `parse_once` yields `" "` instead
of the claimed `" v"`, although `$y` alone resolves fine. -/
theorem claim_C3_counterexample :
    parse_once [("y", "v")] "$x $y" = " " ∧
      parse_once [("y", "v")] "$x $y" ≠ " v" ∧
      parse_once [("y", "v")] " $y" = " v" := by
  decide

/-- Claim C3, amended: when a `$identifier` token ends and the key buffer
was empty at the token's start — in particular when no reference precedes
it, the case proved here — the engine looks up exactly the collected
identifier: if found it appends that key's raw value (and clears the
buffer), if not found it appends nothing, raises no error, and leaves no
literal `$name` text.  After a failed lookup the buffer is *not* cleared,
so a later token's lookup sees the stale identifier prepended
(see the counterexample). -/
theorem claim_C3 (m : Store) (pre name : List Char) (c : Char)
    (rest : List Char)
    (hpre : ∀ a ∈ pre, a ≠ '\\' ∧ a ≠ '$' ∧ a ≠ '\x00')
    (hname : name ≠ []) (hid : ∀ a ∈ name, isIdent a = true)
    (hni : isIdent c = false) (hc1 : c ≠ '{') (hc2 : c ≠ '\\')
    (hc3 : c ≠ '$') (hc4 : c ≠ '\x00') :
    (∀ v, mapFind m ⟨name⟩ = some v →
        parse_once m ⟨pre ++ '$' :: name ++ c :: rest⟩ =
          ⟨pre ++ v.data ++ c :: (parse_once m ⟨rest⟩).data⟩) ∧
      (mapFind m ⟨name⟩ = none →
        parse_once m ⟨pre ++ '$' :: name ++ [c]⟩ = ⟨pre ++ [c]⟩) := by
  obtain ⟨n0, nt, rfl⟩ := List.exists_cons_of_ne_nil hname
  have hn0 : isIdent n0 = true := hid n0 (by simp)
  have hnt : ∀ a ∈ nt, isIdent a = true := fun a ha => hid a (by simp [ha])
  constructor
  · intro v hv
    show (⟨ploop m .unknow false []
      (pre ++ ('$' :: (n0 :: nt)) ++ c :: rest)⟩ : String) = _
    rw [List.append_assoc, List.cons_append,
      ploop_copies m false [] _ hpre,
      ploop_dollar_char m false [] _ (by decide), List.cons_append,
      ploop_dollar_ident m false [] _ hn0, List.nil_append,
      ploop_collect m false [n0] _ hnt,
      ploop_fetchkey_term m false ([n0] ++ nt) rest hni hc1 hc2 hc3 hc4]
    simp [lookupD, hv, parse_once]
  · intro hv
    show (⟨ploop m .unknow false []
      (pre ++ ('$' :: (n0 :: nt)) ++ [c])⟩ : String) = _
    rw [List.append_assoc, List.cons_append,
      ploop_copies m false [] _ hpre,
      ploop_dollar_char m false [] _ (by decide), List.cons_append,
      ploop_dollar_ident m false [] _ hn0, List.nil_append,
      ploop_collect m false [n0] _ hnt,
      ploop_fetchkey_term m false ([n0] ++ nt) [] hni hc1 hc2 hc3 hc4]
    simp [lookupD, hv, ploop_nil]

/-- Witness for `claim_C3`: store `[("y", "v")]`; the token `$y` after the
non-reference prefix `"-"` resolves to `v`, and the unknown token `$x`
before a space is dropped without a trace. -/
theorem claim_C3_witness :
    parse_once [("y", "v")] ⟨['-'] ++ '$' :: ['y'] ++ ' ' :: ['z']⟩ =
        ⟨['-'] ++ ("v" : String).data ++ ' ' ::
          (parse_once [("y", "v")] ⟨['z']⟩).data⟩ ∧
      parse_once [("y", "v")] ⟨['-'] ++ '$' :: ['x'] ++ [' ']⟩ =
        ⟨['-'] ++ [' ']⟩ :=
  ⟨(claim_C3 [("y", "v")] ['-'] ['y'] ' ' ['z'] (by decide) (by decide)
      (by decide) (by decide) (by decide) (by decide) (by decide)
      (by decide)).1 "v" (by decide),
    (claim_C3 [("y", "v")] ['-'] ['x'] ' ' [] (by decide) (by decide)
      (by decide) (by decide) (by decide) (by decide) (by decide)
      (by decide)).2 (by decide)⟩

/-- Claim C10 (confirmed, implicit): `brace_open`, once set by a `${...}`
reference, is never reset during the pass.  A later bare `$identifier`
reference whose identifier is terminated by `'}'` therefore has that `'}'`
consumed — not copied to the output and not re-examined — whereas with no
preceding brace-form reference the `'}'` is copied to the output. -/
theorem claim_C10 (m : Store) (n1 n2 mid : List Char) (v1 v2 : String)
    (_h1ne : n1 ≠ []) (h1id : ∀ a ∈ n1, isIdent a = true)
    (h2ne : n2 ≠ []) (h2id : ∀ a ∈ n2, isIdent a = true)
    (hmid : ∀ a ∈ mid, a ≠ '\\' ∧ a ≠ '$' ∧ a ≠ '\x00')
    (hv1 : mapFind m ⟨n1⟩ = some v1) (hv2 : mapFind m ⟨n2⟩ = some v2) :
    parse_once m ⟨'$' :: '{' :: n1 ++ '}' :: mid ++ '$' :: n2 ++ ['}']⟩ =
        ⟨v1.data ++ mid ++ v2.data⟩ ∧
      parse_once m ⟨'$' :: n2 ++ ['}']⟩ = ⟨v2.data ++ ['}']⟩ := by
  constructor
  · show (⟨ploop m .unknow false []
      ('$' :: '{' :: n1 ++ '}' :: mid ++ '$' :: n2 ++ ['}'])⟩ : String) = _
    simp only [List.cons_append, List.append_assoc]
    rw [ploop_dollar_char m false [] _ (by decide), ploop_dollar_brace,
      ploop_collect m true [] _ h1id, List.nil_append,
      ploop_fetchkey_term m true n1 _ (by decide) (by decide) (by decide)
        (by decide) (by decide)]
    rw [if_pos (show true = true ∧ ('}' : Char) = '}' from ⟨rfl, rfl⟩)]
    rw [show (if (mapFind m ⟨n1⟩).isSome = true then ([] : List Char) else n1)
        = [] from by simp [hv1]]
    cases mid with
    | nil =>
        rw [List.nil_append,
          ploop_ref_braceclose m (by decide) v2 h2ne h2id hv2]
        simp [lookupD, hv1]
    | cons a t =>
        obtain ⟨⟨ha1, ha2, ha3⟩, ht⟩ := List.forall_mem_cons.mp hmid
        rw [List.cons_append,
          ploop_replace_cons m true [] _ ha1 ha3 ha2,
          ploop_copies m true [] _ ht,
          ploop_ref_braceclose m (by decide) v2 h2ne h2id hv2]
        simp [lookupD, hv1]
  · show (⟨ploop m .unknow false [] (('$' :: n2) ++ ['}'])⟩ : String) = _
    obtain ⟨n0, nt, rfl⟩ := List.exists_cons_of_ne_nil h2ne
    have hn0 : isIdent n0 = true := h2id n0 (by simp)
    have hnt : ∀ a ∈ nt, isIdent a = true := fun a ha => h2id a (by simp [ha])
    rw [List.cons_append, ploop_dollar_char m false [] _ (by decide),
      List.cons_append, ploop_dollar_ident m false [] _ hn0, List.nil_append,
      ploop_collect m false [n0] _ hnt,
      ploop_fetchkey_term m false ([n0] ++ nt) [] (by decide) (by decide)
        (by decide) (by decide) (by decide)]
    simp [lookupD, hv2, ploop_nil]

/-- Witness for `claim_C10`: store `[("a", "1"), ("b", "2")]`, brace
reference `${a}`, then bare `$b` closed by `'}'`. -/
theorem claim_C10_witness :
    parse_once [("a", "1"), ("b", "2")]
        ⟨'$' :: '{' :: ['a'] ++ '}' :: [' '] ++ '$' :: ['b'] ++ ['}']⟩ =
        ⟨("1" : String).data ++ [' '] ++ ("2" : String).data⟩ ∧
      parse_once [("a", "1"), ("b", "2")] ⟨'$' :: ['b'] ++ ['}']⟩ =
        ⟨("2" : String).data ++ ['}']⟩ :=
  claim_C10 [("a", "1"), ("b", "2")] ['a'] ['b'] [' '] "1" "2" (by decide)
    (by decide) (by decide) (by decide) (by decide) (by decide) (by decide)

/-! ## Round-trip machinery for claim C5 -/

lemma line_data (k v : String) :
    (k ++ " = " ++ v).data = k.data ++ ' ' :: '=' :: ' ' :: v.data := by
  rw [String.data_append, String.data_append]
  rw [show (" = " : String).data = [' ', '=', ' '] from rfl]
  simp

/-- Ingesting the dumped line of a benign entry re-creates exactly that
entry. -/
lemma ingest_good (acc : Store) (k v : String) (hk : goodKey k.data)
    (hv : goodVal v.data) :
    ingest_line acc (k ++ " = " ++ v) = mapInsert acc k v := by
  obtain ⟨hkne, hknl, hkh, hkl⟩ := hk
  obtain ⟨hvnl, hvh, hvl⟩ := hv
  obtain ⟨a, t, hkd⟩ := List.exists_cons_of_ne_nil hkne
  have hah : isWs a = false ∧ a ≠ '#' := by
    rw [hkd] at hkh
    simpa using hkh
  have hspace : ∀ c ∈ [' '], isWs c = true := by decide
  have hpre : '=' ∉ k.data ++ [' '] := by
    intro hm
    rcases List.mem_append.mp hm with hm | hm
    · exact (hknl '=' hm).2 rfl
    · simp at hm
  have hkeytrim : trim ⟨k.data ++ [' ']⟩ = k :=
    trim_append_trailing k.data [' '] hkne
      (by rw [hkd]; simpa using hah.1) hkl hspace
  have hkne' : k ≠ "" := by
    intro h
    rw [h] at hkd
    exact absurd hkd (by simp)
  cases hvd : v.data with
  | nil =>
      have hveq : v = "" := by
        rw [← mk_data v, hvd]
      rw [hveq]
      have hld : (k ++ " = " ++ "").data = (k.data ++ [' ', '=']) ++ [' '] := by
        rw [line_data]
        simp
      have htr : trim (k ++ " = " ++ "") = ⟨k.data ++ [' ', '=']⟩ := by
        rw [← mk_data (k ++ " = " ++ ""), hld]
        refine trim_append_trailing _ [' '] (by simp [hkd]) ?_ ?_ hspace
        · rw [hkd, List.cons_append]
          simpa using hah.1
        · rw [show k.data ++ [' ', '='] = (k.data ++ [' ']) ++ ['='] from by
            simp, List.getLast?_concat]
          rfl
      rw [ingest_line, htr]
      have hd2 : (⟨k.data ++ [' ', '=']⟩ : String).data =
          a :: (t ++ [' ', '=']) := by
        show k.data ++ [' ', '='] = _
        rw [hkd, List.cons_append]
      rw [hd2]
      show (if a = '#' then acc
        else insert acc ⟨a :: (t ++ [' ', '='])⟩) = mapInsert acc k ""
      rw [if_neg hah.2]
      rw [insert]
      have hfd : findEq (⟨a :: (t ++ [' ', '='])⟩ : String).data =
          some (k.data ++ [' ']).length := by
        show findEq (a :: (t ++ [' ', '='])) = _
        rw [show a :: (t ++ [' ', '=']) = (k.data ++ [' ']) ++ '=' :: [] from by
          rw [hkd]; simp]
        exact findEq_append hpre
      rw [hfd]
      simp only
      have htake : (⟨a :: (t ++ [' ', '='])⟩ : String).data.take
          (k.data ++ [' ']).length = k.data ++ [' '] := by
        show (a :: (t ++ [' ', '='])).take (k.data ++ [' ']).length = _
        rw [show a :: (t ++ [' ', '=']) = (k.data ++ [' ']) ++ ['='] from by
          rw [hkd]; simp]
        exact List.take_left _ _
      have hdrop : (⟨a :: (t ++ [' ', '='])⟩ : String).data.drop
          ((k.data ++ [' ']).length + 1) = [] := by
        show (a :: (t ++ [' ', '='])).drop ((k.data ++ [' ']).length + 1) = _
        rw [show a :: (t ++ [' ', '=']) = (k.data ++ [' ']) ++ ['='] from by
          rw [hkd]; simp]
        rw [List.drop_append]
        rfl
      rw [htake, hdrop, hkeytrim]
      rw [if_neg hkne']
      rfl
  | cons b0 bt =>
      have htr : trim (k ++ " = " ++ v) = k ++ " = " ++ v := by
        rw [← mk_data (k ++ " = " ++ v), line_data]
        refine trim_clean _ (by simp [hkd]) ?_ ?_
        · rw [hkd, List.cons_append]
          simpa using hah.1
        · have hlst : (k.data ++ ' ' :: '=' :: ' ' :: v.data).getLast? =
              v.data.getLast? := by
            rw [hvd, List.getLast?_append_cons, List.getLast?_cons_cons,
              List.getLast?_cons_cons, List.getLast?_cons_cons]
          rw [hlst]
          exact hvl
      rw [ingest_line, htr]
      have hd2 : (k ++ " = " ++ v).data = a :: (t ++ ' ' :: '=' :: ' ' :: v.data) := by
        rw [line_data, hkd, List.cons_append]
      rw [hd2]
      show (if a = '#' then acc
        else insert acc ⟨a :: (t ++ ' ' :: '=' :: ' ' :: v.data)⟩) =
        mapInsert acc k v
      rw [if_neg hah.2]
      rw [insert]
      have hfd : findEq (⟨a :: (t ++ ' ' :: '=' :: ' ' :: v.data)⟩ : String).data =
          some (k.data ++ [' ']).length := by
        show findEq (a :: (t ++ ' ' :: '=' :: ' ' :: v.data)) = _
        rw [show a :: (t ++ ' ' :: '=' :: ' ' :: v.data) =
            (k.data ++ [' ']) ++ '=' :: (' ' :: v.data) from by rw [hkd]; simp]
        exact findEq_append hpre
      rw [hfd]
      simp only
      have htake : (⟨a :: (t ++ ' ' :: '=' :: ' ' :: v.data)⟩ : String).data.take
          (k.data ++ [' ']).length = k.data ++ [' '] := by
        show (a :: (t ++ ' ' :: '=' :: ' ' :: v.data)).take
          (k.data ++ [' ']).length = _
        rw [show a :: (t ++ ' ' :: '=' :: ' ' :: v.data) =
            (k.data ++ [' ']) ++ '=' :: (' ' :: v.data) from by rw [hkd]; simp]
        exact List.take_left _ _
      have hdrop : (⟨a :: (t ++ ' ' :: '=' :: ' ' :: v.data)⟩ : String).data.drop
          ((k.data ++ [' ']).length + 1) = ' ' :: v.data := by
        show (a :: (t ++ ' ' :: '=' :: ' ' :: v.data)).drop
          ((k.data ++ [' ']).length + 1) = _
        rw [show a :: (t ++ ' ' :: '=' :: ' ' :: v.data) =
            (k.data ++ [' ']) ++ '=' :: (' ' :: v.data) from by rw [hkd]; simp]
        rw [List.drop_append]
        rfl
      rw [htake, hdrop, hkeytrim]
      have hvaltrim : trim ⟨' ' :: v.data⟩ = v := by
        have := trim_leading_ws [' '] v.data (by decide) (by simp [hvd]) hvh hvl
        rw [show ([' '] ++ v.data) = ' ' :: v.data from rfl] at this
        rw [this, mk_data]
      rw [hvaltrim]
      rw [if_neg hkne']

lemma splitLines_append (a rest : List Char) (h : '\n' ∉ a) :
    splitLines (a ++ '\n' :: rest) = a :: splitLines rest := by
  induction a with
  | nil => simp [splitLines]
  | cons c t ih =>
      have hc : c ≠ '\n' := by rintro rfl; exact h (by simp)
      have ht : '\n' ∉ t := fun hm => h (by simp [hm])
      simp [List.cons_append, splitLines, hc, ih ht]

lemma dump_lines (S : Store)
    (h : ∀ e ∈ S, (∀ c ∈ e.1.data, c ≠ '\n') ∧ (∀ c ∈ e.2.data, c ≠ '\n')) :
    splitLines (dump S).data =
      S.map (fun e => (e.1 ++ " = " ++ e.2).data) ++ [[]] := by
  induction S with
  | nil => rfl
  | cons e t ih =>
      obtain ⟨⟨h1, h2⟩, ht⟩ := List.forall_mem_cons.mp h
      have hd : (dump (e :: t)).data =
          (e.1 ++ " = " ++ e.2).data ++ '\n' :: (dump t).data := by
        show (e.1 ++ " = " ++ e.2 ++ "\n" ++ dump t).data = _
        rw [String.data_append, String.data_append]
        rw [show ("\n" : String).data = ['\n'] from rfl]
        simp
      have hnl : '\n' ∉ (e.1 ++ " = " ++ e.2).data := by
        rw [line_data]
        intro hm
        rcases List.mem_append.mp hm with hm | hm
        · exact h1 _ hm rfl
        · rcases hm with _ | ⟨_, _ | ⟨_, _ | ⟨_, hm⟩⟩⟩
          exact h2 _ hm rfl
      rw [hd, splitLines_append _ _ hnl, ih ht]
      rfl

/-- Folding the dumped lines of a sorted batch of benign entries onto an
accumulator whose keys all precede them appends the batch unchanged. -/
lemma load_fold (S : Store) : ∀ acc : Store,
    StoreSorted (acc ++ S) →
    (∀ e ∈ S, goodKey e.1.data ∧ goodVal e.2.data) →
    S.foldl (fun A e => ingest_line A (e.1 ++ " = " ++ e.2)) acc = acc ++ S := by
  induction S with
  | nil => intro acc _ _; simp
  | cons e t ih =>
      intro acc hsort hgood
      obtain ⟨k, v⟩ := e
      obtain ⟨he, ht⟩ := List.forall_mem_cons.mp hgood
      have hlt : ∀ x ∈ acc, strLt x.1 k = true := by
        intro x hx
        exact (List.pairwise_append.mp hsort).2.2 x hx (k, v) (by simp)
      rw [List.foldl_cons, ingest_good acc k v he.1 he.2,
        mapInsert_append acc k v hlt,
        ih (acc ++ [(k, v)]) (by rwa [← List.append_cons]) ht]
      simp

/-- Claim C5, counterexample.  A store entry whose key begins with `'#'`
(reachable through the raw-line API: `cfg << "#a=1"`) is dumped as a line
that the loader then skips as a comment, so reloading the dump loses the
entry and its resolved value: the round trip fails for this store. -/
theorem claim_C5_counterexample :
    dump [("#a", "1")] = "#a = 1\n" ∧
      loadFromText (dump [("#a", "1")]) = [] ∧
      get_value [("#a", "1")] 3 "#a" = some "1" ∧
      get_value (loadFromText (dump [("#a", "1")])) 3 "#a" = none := by
  decide

/-- Claim C5, amended: for every sorted store whose keys are non-empty,
free of `'\n'` and `'='`, with a first character that is neither whitespace
nor `'#'` and a last character that is not whitespace, and whose values are
free of `'\n'` with no leading or trailing whitespace, `dump` produces one
`"<key> = <raw value>"` line per entry in key order with the raw unresolved
value, reloading those lines rebuilds the identical store, and hence every
key resolves identically in the reloaded store. -/
theorem claim_C5 (S : Store) (hs : StoreSorted S)
    (hg : ∀ e ∈ S, goodKey e.1.data ∧ goodVal e.2.data) :
    (splitLines (dump S).data).dropLast =
        S.map (fun e => (e.1 ++ " = " ++ e.2).data) ∧
      loadFromText (dump S) = S ∧
      ∀ level key, get_value (loadFromText (dump S)) level key =
        get_value S level key := by
  have hnl : ∀ e ∈ S, (∀ c ∈ e.1.data, c ≠ '\n') ∧ (∀ c ∈ e.2.data, c ≠ '\n') := by
    intro e he
    obtain ⟨⟨-, hk, -, -⟩, hv, -, -⟩ := hg e he
    exact ⟨fun c hc => (hk c hc).1, fun c hc => hv c hc⟩
  have h1 : (splitLines (dump S).data).dropLast =
      S.map (fun e => (e.1 ++ " = " ++ e.2).data) := by
    rw [dump_lines S hnl, List.dropLast_concat]
  have h2 : loadFromText (dump S) = S := by
    rw [loadFromText, h1, List.foldl_map]
    simp only [mk_data]
    exact load_fold S [] (by simpa using hs) hg
  exact ⟨h1, h2, fun level key => by rw [h2]⟩

/-- Witness for `claim_C5` on the store `[("a", "1"), ("b", "$a")]`. -/
theorem claim_C5_witness :
    StoreSorted [("a", "1"), ("b", "$a")] ∧
      loadFromText (dump [("a", "1"), ("b", "$a")]) = [("a", "1"), ("b", "$a")] ∧
      get_value (loadFromText (dump [("a", "1"), ("b", "$a")])) 3 "b" =
        get_value [("a", "1"), ("b", "$a")] 3 "b" :=
  ⟨by decide,
    (claim_C5 [("a", "1"), ("b", "$a")] (by decide) (by decide)).2.1,
    (claim_C5 [("a", "1"), ("b", "$a")] (by decide) (by decide)).2.2 3 "b"⟩

end LibSetting
